import Mathlib

/-!
Shallow embedding of the health-readmission-risk training and serving code.

The embedding covers:
* `choose_threshold_by_policy` from `src/train.py` (threshold grid, metric
  rows, recall-floor filter, stable descending sort on (F1, precision));
* `TopCategoryReducer` from `src/train.py` and the variant in
  `src/readmission_risk/custom_transformers.py`;
* `prepare_xy` from `src/train.py`;
* `make_input_frame` from `app/model_loader.py` and the `/predict`
  handler from `app/main.py`;
* the model-selection step of `main` in `src/train.py`.

Probabilities and metric values are modelled as rationals; a pandas cell
that may be missing is an `Option`; a data frame is an association list
from column name to its list of cells.
-/

namespace Readmission

/-- One row of the threshold table built by `choose_threshold_by_policy`:
threshold, precision, recall and F1 at that threshold. -/
structure Row where
  threshold : ℚ
  precision : ℚ
  «recall» : ℚ
  f1 : ℚ
  deriving DecidableEq, Repr

/-- True positives of `y_pred` against `y_true` (pairs beyond the shorter
list are ignored, as NumPy arrays here always have equal length). -/
def tpCount (y_true y_pred : List Bool) : ℕ :=
  ((y_true.zip y_pred).filter (fun p => p.1 && p.2)).length

/-- False positives. -/
def fpCount (y_true y_pred : List Bool) : ℕ :=
  ((y_true.zip y_pred).filter (fun p => !p.1 && p.2)).length

/-- False negatives. -/
def fnCount (y_true y_pred : List Bool) : ℕ :=
  ((y_true.zip y_pred).filter (fun p => p.1 && !p.2)).length

/-- `sklearn.metrics.precision_score` with `zero_division=0`, written as an
exact fraction of counts: TP/(TP+FP), or 0 on an empty denominator.
(`mkRat` rather than `/` keeps the definition kernel-computable.) -/
def precision_score (y_true y_pred : List Bool) : ℚ :=
  let tp := tpCount y_true y_pred
  let fp := fpCount y_true y_pred
  if tp + fp = 0 then 0 else mkRat tp (tp + fp)

/-- `sklearn.metrics.recall_score` with `zero_division=0`: TP/(TP+FN), or 0
on an empty denominator. -/
def recall_score (y_true y_pred : List Bool) : ℚ :=
  let tp := tpCount y_true y_pred
  let fn := fnCount y_true y_pred
  if tp + fn = 0 then 0 else mkRat tp (tp + fn)

/-- `sklearn.metrics.f1_score` with `zero_division=0`, as the exact fraction
2·TP/(2·TP+FP+FN), or 0 on an empty denominator. `f1_score_eq_harmonic`
below checks this against the harmonic-mean formula
`2·P·R/(P+R)` sklearn documents. -/
def f1_score (y_true y_pred : List Bool) : ℚ :=
  let tp := tpCount y_true y_pred
  let fp := fpCount y_true y_pred
  let fn := fnCount y_true y_pred
  if 2 * tp + fp + fn = 0 then 0 else mkRat (2 * tp) (2 * tp + fp + fn)

theorem mkRat_eq_div_cast (n : ℤ) (d : ℕ) : mkRat n d = (n : ℚ) / (d : ℚ) := by
  rw [Rat.mkRat_eq_divInt, Rat.divInt_eq_div]
  norm_cast

/-- The two zero-division forms of F1 agree: the count fraction
2·TP/(2·TP+FP+FN) equals the harmonic-mean formula 2·P·R/(P+R) with the
0-on-empty-denominator convention. -/
theorem f1_formula (tp fp fn : ℕ) :
    (if 2 * tp + fp + fn = 0 then (0 : ℚ)
      else mkRat (2 * tp) (2 * tp + fp + fn)) =
      if ((if tp + fp = 0 then (0 : ℚ) else mkRat tp (tp + fp)) +
          (if tp + fn = 0 then (0 : ℚ) else mkRat tp (tp + fn))) = 0 then 0
      else 2 * (if tp + fp = 0 then (0 : ℚ) else mkRat tp (tp + fp)) *
          (if tp + fn = 0 then (0 : ℚ) else mkRat tp (tp + fn)) /
        ((if tp + fp = 0 then (0 : ℚ) else mkRat tp (tp + fp)) +
          (if tp + fn = 0 then (0 : ℚ) else mkRat tp (tp + fn))) := by
  by_cases h0 : tp = 0
  · subst h0
    simp
  · have h1 : tp + fp ≠ 0 := by omega
    have h2 : tp + fn ≠ 0 := by omega
    have h3 : 2 * tp + fp + fn ≠ 0 := by omega
    rw [if_neg h1, if_neg h2, if_neg h3]
    rw [mkRat_eq_div_cast, mkRat_eq_div_cast, mkRat_eq_div_cast]
    push_cast
    have hA : (0 : ℚ) < (tp : ℚ) := by
      exact_mod_cast Nat.pos_of_ne_zero h0
    have hAB : (0 : ℚ) < (tp : ℚ) + (fp : ℚ) := by positivity
    have hAC : (0 : ℚ) < (tp : ℚ) + (fn : ℚ) := by positivity
    have hsum : (0 : ℚ) < (tp : ℚ) / ((tp : ℚ) + (fp : ℚ)) +
        (tp : ℚ) / ((tp : ℚ) + (fn : ℚ)) := by positivity
    rw [if_neg (ne_of_gt hsum)]
    have h3q : 2 * (tp : ℚ) + (fp : ℚ) + (fn : ℚ) ≠ 0 := by positivity
    field_simp
    ring

/-- The harmonic-mean reading of `f1_score`, as sklearn documents it. -/
theorem f1_score_eq_harmonic (y_true y_pred : List Bool) :
    f1_score y_true y_pred =
      if precision_score y_true y_pred + recall_score y_true y_pred = 0
      then 0
      else 2 * precision_score y_true y_pred * recall_score y_true y_pred /
        (precision_score y_true y_pred + recall_score y_true y_pred) := by
  unfold f1_score precision_score recall_score
  exact f1_formula _ _ _

/-- `(y_proba >= t).astype(int)` as a Boolean prediction vector. -/
def predsAt (y_proba : List ℚ) (t : ℚ) : List Bool :=
  y_proba.map (fun p => t ≤ p)

/-- Recall of the thresholded predictions at threshold `t`. -/
def recallAt (y_true : List Bool) (y_proba : List ℚ) (t : ℚ) : ℚ :=
  recall_score y_true (predsAt y_proba t)

/-- Precision of the thresholded predictions at threshold `t`. -/
def precisionAt (y_true : List Bool) (y_proba : List ℚ) (t : ℚ) : ℚ :=
  precision_score y_true (predsAt y_proba t)

/-- F1 of the thresholded predictions at threshold `t`. -/
def f1At (y_true : List Bool) (y_proba : List ℚ) (t : ℚ) : ℚ :=
  f1_score y_true (predsAt y_proba t)

/-- `np.linspace(0.05, 0.95, 91)`: the 91-point grid 0.05, 0.06, …, 0.95,
as the exact fractions (5+i)/100 for i = 0, …, 90. -/
def thresholds : List ℚ :=
  (List.range 91).map (fun i : ℕ => mkRat (5 + (i : ℤ)) 100)

/-- The threshold-table row computed for one grid threshold. -/
def evalRow (y_true : List Bool) (y_proba : List ℚ) (t : ℚ) : Row :=
  { threshold := t
    precision := precisionAt y_true y_proba t
    «recall» := recallAt y_true y_proba t
    f1 := f1At y_true y_proba t }

/-- Strict lexicographic order on pairs of sort keys; `lexLt a b` means
`a` sorts strictly after `b` in the descending sort. -/
def lexLt (a b : ℚ × ℚ) : Prop := a.1 < b.1 ∨ (a.1 = b.1 ∧ a.2 < b.2)

instance (a b : ℚ × ℚ) : Decidable (lexLt a b) := by
  unfold lexLt; infer_instance

/-- First element attaining the lexicographic maximum of `key` over the
list: the row `sort_values(…, ascending=False).iloc[0]` selects, since a
pandas multi-key sort is a stable lexsort. -/
def argmaxLex {α : Type} (key : α → ℚ × ℚ) : List α → Option α
  | [] => none
  | x :: xs =>
    match argmaxLex key xs with
    | none => some x
    | some b => if lexLt (key x) (key b) then some b else some x

/-- Sort key used by `choose_threshold_by_policy`: (F1, precision). -/
def fpKey (r : Row) : ℚ × ℚ := (r.f1, r.precision)

/-- The `tbl` data frame of `choose_threshold_by_policy`: one metric row
per grid threshold, in grid order. -/
def thresholdTable (y_true : List Bool) (y_proba : List ℚ) : List Row :=
  thresholds.map (fun t => evalRow y_true y_proba t)

/-- The `candidates` frame: `tbl[tbl["recall"] >= recall_target]`. -/
def candidatesOf (y_true : List Bool) (y_proba : List ℚ)
    (recall_target : ℚ) : List Row :=
  (thresholdTable y_true y_proba).filter (fun r => recall_target ≤ r.«recall»)

/-- The `best_row` of `choose_threshold_by_policy`: the stable descending
(F1, precision) sort's first row of `candidates` when that frame is
non-empty, of the whole table otherwise.  (The `getD` default is never
used: the table always has 91 rows.) -/
def best_row (y_true : List Bool) (y_proba : List ℚ)
    (recall_target : ℚ) : Row :=
  match argmaxLex fpKey (candidatesOf y_true y_proba recall_target) with
  | some r => r
  | none => (argmaxLex fpKey (thresholdTable y_true y_proba)).getD ⟨0, 0, 0, 0⟩

/-- `choose_threshold_by_policy` from `src/train.py`: build the 91-row
threshold table, filter to rows with recall ≥ the recall target, take the
best row under the stable descending (F1, precision) sort — falling back
to the whole table when the filter is empty — and return its threshold
together with the full table. -/
def choose_threshold_by_policy (y_true : List Bool) (y_proba : List ℚ)
    (recall_target : ℚ) : ℚ × List Row :=
  ((best_row y_true y_proba recall_target).threshold,
    thresholdTable y_true y_proba)

/-! ### Order lemmas for the descending lexicographic sort key -/

theorem lexLt_iff_toLex (a b : ℚ × ℚ) : lexLt a b ↔ toLex a < toLex b := by
  rw [Prod.Lex.lt_iff]; rfl

theorem lexLt_irrefl (a : ℚ × ℚ) : ¬ lexLt a a := by
  rw [lexLt_iff_toLex]; exact lt_irrefl _

theorem lexLt_asymm {a b : ℚ × ℚ} (h : lexLt a b) : ¬ lexLt b a := by
  rw [lexLt_iff_toLex] at h ⊢; exact not_lt_of_lt h

theorem not_lexLt_trans {a b c : ℚ × ℚ} (h₁ : ¬ lexLt b a) (h₂ : ¬ lexLt c b) :
    ¬ lexLt c a := by
  rw [lexLt_iff_toLex] at h₁ h₂ ⊢
  exact not_lt.mpr (le_trans (not_lt.mp h₁) (not_lt.mp h₂))

theorem not_lexLt_of_eq_fst_le_snd {a b : ℚ × ℚ} (h1 : a.1 ≤ b.1)
    (h2 : a.1 = b.1 → a.2 ≤ b.2) : ¬ lexLt b a := by
  intro h
  rcases h with h | ⟨he, h⟩
  · exact absurd h1 (not_le_of_lt h)
  · exact absurd (h2 he.symm) (not_le.mpr h)

theorem le_components_of_not_lexLt {a b : ℚ × ℚ} (h : ¬ lexLt b a) :
    a.1 ≤ b.1 ∧ (a.1 = b.1 → a.2 ≤ b.2) := by
  constructor
  · by_contra hc
    exact h (Or.inl (not_le.mp hc))
  · intro he
    by_contra hc
    exact h (Or.inr ⟨he.symm, not_le.mp hc⟩)

/-! ### Lemmas about `argmaxLex` -/

theorem argmaxLex_eq_none_iff {α : Type} (key : α → ℚ × ℚ) (l : List α) :
    argmaxLex key l = none ↔ l = [] := by
  cases l with
  | nil => simp [argmaxLex]
  | cons x xs =>
    simp only [argmaxLex]
    cases argmaxLex key xs
    · simp
    · rename_i b
      by_cases h : lexLt (key x) (key b) <;> simp [h]

theorem argmaxLex_mem {α : Type} (key : α → ℚ × ℚ) :
    ∀ {l : List α} {r : α}, argmaxLex key l = some r → r ∈ l := by
  intro l
  induction l with
  | nil => intro r h; simp [argmaxLex] at h
  | cons x xs ih =>
    intro r h
    simp only [argmaxLex] at h
    cases hx : argmaxLex key xs with
    | none => rw [hx] at h; simp at h; simp [h]
    | some b =>
      rw [hx] at h
      by_cases hlt : lexLt (key x) (key b)
      · simp [hlt] at h; subst h; exact List.mem_cons_of_mem _ (ih hx)
      · simp [hlt] at h; simp [h]

theorem argmaxLex_not_lexLt {α : Type} (key : α → ℚ × ℚ) :
    ∀ {l : List α} {r : α}, argmaxLex key l = some r →
      ∀ y ∈ l, ¬ lexLt (key r) (key y) := by
  intro l
  induction l with
  | nil => intro r h; simp [argmaxLex] at h
  | cons x xs ih =>
    intro r h y hy
    simp only [argmaxLex] at h
    cases hx : argmaxLex key xs with
    | none =>
      rw [hx] at h; simp at h; subst h
      rcases List.mem_cons.mp hy with hy | hy
      · subst hy; exact lexLt_irrefl _
      · rw [(argmaxLex_eq_none_iff key xs).mp hx] at hy; simp at hy
    | some b =>
      rw [hx] at h
      by_cases hlt : lexLt (key x) (key b)
      · simp [hlt] at h; subst h
        rcases List.mem_cons.mp hy with hy | hy
        · subst hy; exact lexLt_asymm hlt
        · exact ih hx y hy
      · simp [hlt] at h; subst h
        rcases List.mem_cons.mp hy with hy | hy
        · subst hy; exact lexLt_irrefl _
        · exact not_lexLt_trans (ih hx y hy) hlt

/-- On a list whose `pos` values are strictly increasing, the selected
element is the earliest among full-key ties, hence has the least `pos`. -/
theorem argmaxLex_first_tie {α : Type} (key : α → ℚ × ℚ) (pos : α → ℚ) :
    ∀ {l : List α} {r : α}, l.Pairwise (fun a b => pos a < pos b) →
      argmaxLex key l = some r →
      ∀ y ∈ l, key y = key r → pos r ≤ pos y := by
  intro l
  induction l with
  | nil => intro r _ h; simp [argmaxLex] at h
  | cons x xs ih =>
    intro r hp h y hy hk
    have hpx := List.pairwise_cons.mp hp
    simp only [argmaxLex] at h
    cases hx : argmaxLex key xs with
    | none =>
      rw [hx] at h; simp at h; subst h
      rcases List.mem_cons.mp hy with hy | hy
      · subst hy; exact le_refl _
      · exact le_of_lt (hpx.1 y hy)
    | some b =>
      rw [hx] at h
      by_cases hlt : lexLt (key x) (key b)
      · simp [hlt] at h; subst h
        rcases List.mem_cons.mp hy with hy | hy
        · subst hy; rw [hk] at hlt; exact absurd hlt (lexLt_irrefl _)
        · exact ih hpx.2 hx y hy hk
      · simp [hlt] at h; subst h
        rcases List.mem_cons.mp hy with hy | hy
        · subst hy; exact le_refl _
        · exact le_of_lt (hpx.1 y hy)

/-- The winner over a list, if it survives a filter, is also the winner
over the filtered list. -/
theorem argmaxLex_filter {α : Type} (key : α → ℚ × ℚ) (p : α → Bool) :
    ∀ {l : List α} {r : α}, argmaxLex key l = some r → p r = true →
      argmaxLex key (l.filter p) = some r := by
  intro l
  induction l with
  | nil => intro r h; simp [argmaxLex] at h
  | cons x xs ih =>
    intro r h hpr
    simp only [argmaxLex] at h
    cases hx : argmaxLex key xs with
    | none =>
      rw [hx] at h; simp at h; subst h
      rw [(argmaxLex_eq_none_iff key xs).mp hx]
      simp [List.filter_cons, hpr, argmaxLex]
    | some b =>
      rw [hx] at h
      by_cases hlt : lexLt (key x) (key b)
      · simp [hlt] at h; subst h
        have hfb := ih hx hpr
        rw [List.filter_cons]
        by_cases hpx : p x = true
        · simp only [hpx, if_pos rfl]
          simp only [argmaxLex, hfb, hlt, if_pos]
        · simp [hpx, hfb]
      · simp [hlt] at h; subst h
        rw [List.filter_cons]
        simp only [hpr, if_pos rfl]
        simp only [argmaxLex]
        cases hf : argmaxLex key (xs.filter p) with
        | none => rfl
        | some c =>
          have hc : c ∈ xs.filter p := argmaxLex_mem key hf
          have hcx : c ∈ xs := List.mem_of_mem_filter hc
          have hnb : ¬ lexLt (key b) (key c) := argmaxLex_not_lexLt key hx c hcx
          have : ¬ lexLt (key x) (key c) := not_lexLt_trans hnb hlt
          simp [this]

/-! ### The threshold grid and the threshold table -/

theorem thresholds_bounds : ∀ t ∈ thresholds, mkRat 1 20 ≤ t ∧ t ≤ mkRat 19 20 := by
  intro t ht
  simp only [thresholds, List.mem_map, List.mem_range] at ht
  obtain ⟨i, hi, rfl⟩ := ht
  rw [mkRat_eq_div_cast, mkRat_eq_div_cast, mkRat_eq_div_cast]
  constructor
  · rw [div_le_div_iff (by norm_num) (by norm_num)]
    push_cast
    have h0 : (0 : ℚ) ≤ (i : ℚ) := by positivity
    linarith
  · rw [div_le_div_iff (by norm_num) (by norm_num)]
    push_cast
    have h90 : (i : ℚ) ≤ 90 := by exact_mod_cast Nat.lt_succ_iff.mp hi
    linarith

theorem thresholds_sorted : thresholds.Pairwise (· < ·) := by
  refine List.Pairwise.map _ ?_ (List.pairwise_lt_range 91)
  intro i j hij
  rw [mkRat_eq_div_cast, mkRat_eq_div_cast]
  rw [div_lt_div_iff (by norm_num) (by norm_num)]
  push_cast
  have : (i : ℚ) < j := by exact_mod_cast hij
  linarith

theorem thresholds_ne_nil : thresholds ≠ [] := by
  simp [thresholds, List.range_succ]

theorem mem_thresholdTable {y_true : List Bool} {y_proba : List ℚ} {r : Row}
    (h : r ∈ thresholdTable y_true y_proba) :
    r = evalRow y_true y_proba r.threshold ∧ r.threshold ∈ thresholds := by
  obtain ⟨t, ht, rfl⟩ := List.mem_map.mp h
  exact ⟨rfl, ht⟩

theorem evalRow_mem_thresholdTable {y_true : List Bool} {y_proba : List ℚ}
    {t : ℚ} (h : t ∈ thresholds) :
    evalRow y_true y_proba t ∈ thresholdTable y_true y_proba :=
  List.mem_map.mpr ⟨t, h, rfl⟩

theorem thresholdTable_sorted (y_true : List Bool) (y_proba : List ℚ) :
    (thresholdTable y_true y_proba).Pairwise
      (fun a b => a.threshold < b.threshold) := by
  refine List.pairwise_map.mpr (thresholds_sorted.imp ?_)
  intro a b hab
  exact hab

theorem thresholdTable_ne_nil (y_true : List Bool) (y_proba : List ℚ) :
    thresholdTable y_true y_proba ≠ [] := by
  simp only [thresholdTable, ne_eq, List.map_eq_nil_iff]
  exact thresholds_ne_nil

theorem mem_candidatesOf {y_true : List Bool} {y_proba : List ℚ}
    {recall_target : ℚ} {r : Row} :
    r ∈ candidatesOf y_true y_proba recall_target ↔
      r ∈ thresholdTable y_true y_proba ∧ recall_target ≤ r.«recall» := by
  simp [candidatesOf, List.mem_filter]

/-! ### Behaviour of `best_row` -/

theorem best_row_of_some {y_true : List Bool} {y_proba : List ℚ}
    {recall_target : ℚ} {r : Row}
    (h : argmaxLex fpKey (candidatesOf y_true y_proba recall_target) = some r) :
    best_row y_true y_proba recall_target = r := by
  simp [best_row, h]

theorem best_row_spec_nonempty {y_true : List Bool} {y_proba : List ℚ}
    {recall_target : ℚ}
    (h : candidatesOf y_true y_proba recall_target ≠ []) :
    best_row y_true y_proba recall_target ∈
        candidatesOf y_true y_proba recall_target ∧
      (∀ y ∈ candidatesOf y_true y_proba recall_target,
        ¬ lexLt (fpKey (best_row y_true y_proba recall_target)) (fpKey y)) ∧
      (∀ y ∈ candidatesOf y_true y_proba recall_target,
        fpKey y = fpKey (best_row y_true y_proba recall_target) →
          (best_row y_true y_proba recall_target).threshold ≤ y.threshold) := by
  cases hx : argmaxLex fpKey (candidatesOf y_true y_proba recall_target) with
  | none => exact absurd ((argmaxLex_eq_none_iff _ _).mp hx) h
  | some r =>
    rw [best_row_of_some hx]
    refine ⟨argmaxLex_mem _ hx, argmaxLex_not_lexLt _ hx, ?_⟩
    intro y hy hk
    exact argmaxLex_first_tie fpKey Row.threshold
      ((thresholdTable_sorted y_true y_proba).filter _) hx y hy hk

theorem best_row_spec_empty {y_true : List Bool} {y_proba : List ℚ}
    {recall_target : ℚ}
    (h : candidatesOf y_true y_proba recall_target = []) :
    best_row y_true y_proba recall_target ∈ thresholdTable y_true y_proba ∧
      ∀ y ∈ thresholdTable y_true y_proba,
        ¬ lexLt (fpKey (best_row y_true y_proba recall_target)) (fpKey y) := by
  have hnone : argmaxLex fpKey (candidatesOf y_true y_proba recall_target) = none :=
    (argmaxLex_eq_none_iff _ _).mpr h
  cases ht : argmaxLex fpKey (thresholdTable y_true y_proba) with
  | none =>
    exact absurd ((argmaxLex_eq_none_iff _ _).mp ht)
      (thresholdTable_ne_nil y_true y_proba)
  | some b =>
    have hb : best_row y_true y_proba recall_target = b := by
      simp [best_row, hnone, ht]
    rw [hb]
    exact ⟨argmaxLex_mem _ ht, argmaxLex_not_lexLt _ ht⟩

theorem best_row_mem_table {y_true : List Bool} {y_proba : List ℚ}
    {recall_target : ℚ} :
    best_row y_true y_proba recall_target ∈ thresholdTable y_true y_proba := by
  by_cases h : candidatesOf y_true y_proba recall_target = []
  · exact (best_row_spec_empty h).1
  · exact List.mem_of_mem_filter (best_row_spec_nonempty h).1

theorem best_row_recall_eq (y_true : List Bool) (y_proba : List ℚ)
    (recall_target : ℚ) :
    recallAt y_true y_proba (best_row y_true y_proba recall_target).threshold =
      (best_row y_true y_proba recall_target).«recall» :=
  (congrArg Row.«recall» (mem_thresholdTable best_row_mem_table).1).symm

theorem candidatesOf_eq_nil {y_true : List Bool} {y_proba : List ℚ}
    {recall_target : ℚ}
    (h : ∀ s ∈ thresholds, recallAt y_true y_proba s < recall_target) :
    candidatesOf y_true y_proba recall_target = [] := by
  refine List.filter_eq_nil_iff.mpr ?_
  intro r hr
  obtain ⟨hre, hrt⟩ := mem_thresholdTable hr
  have hfield : r.«recall» = recallAt y_true y_proba r.threshold :=
    congrArg Row.«recall» hre
  simp only [decide_eq_true_eq]
  rw [hfield]
  exact not_le.mpr (h _ hrt)

/-! ### Claim theorems about `choose_threshold_by_policy` -/

/-- C1: for every label vector and probability vector,
`choose_threshold_by_policy` returns a threshold on the 91-point grid, in
particular in [0.05, 0.95]; when some grid point achieves recall ≥ the
recall floor, the returned threshold's recall is ≥ the floor; otherwise
the returned threshold maximizes F1 — and precision among F1 ties — over
the entire grid. -/
theorem choose_threshold_policy_correct (y_true : List Bool)
    (y_proba : List ℚ) (floor : ℚ) :
    (choose_threshold_by_policy y_true y_proba floor).1 ∈ thresholds ∧
    mkRat 1 20 ≤ (choose_threshold_by_policy y_true y_proba floor).1 ∧
    (choose_threshold_by_policy y_true y_proba floor).1 ≤ mkRat 19 20 ∧
    ((∃ s ∈ thresholds, floor ≤ recallAt y_true y_proba s) →
      floor ≤ recallAt y_true y_proba
        (choose_threshold_by_policy y_true y_proba floor).1) ∧
    ((∀ s ∈ thresholds, recallAt y_true y_proba s < floor) →
      ∀ s ∈ thresholds,
        f1At y_true y_proba s ≤
            f1At y_true y_proba
              (choose_threshold_by_policy y_true y_proba floor).1 ∧
          (f1At y_true y_proba s =
              f1At y_true y_proba
                (choose_threshold_by_policy y_true y_proba floor).1 →
            precisionAt y_true y_proba s ≤
              precisionAt y_true y_proba
                (choose_threshold_by_policy y_true y_proba floor).1)) := by
  have hmem : best_row y_true y_proba floor ∈ thresholdTable y_true y_proba :=
    best_row_mem_table
  obtain ⟨heq, hthr⟩ := mem_thresholdTable hmem
  have hfst : (choose_threshold_by_policy y_true y_proba floor).1 =
      (best_row y_true y_proba floor).threshold := rfl
  refine ⟨hthr, (thresholds_bounds _ hthr).1, (thresholds_bounds _ hthr).2,
    ?_, ?_⟩
  · rintro ⟨s, hs, hrec⟩
    have hcand : evalRow y_true y_proba s ∈ candidatesOf y_true y_proba floor :=
      mem_candidatesOf.mpr ⟨evalRow_mem_thresholdTable hs, hrec⟩
    have hne : candidatesOf y_true y_proba floor ≠ [] := by
      intro hnil; rw [hnil] at hcand; simp at hcand
    have hrecb := (mem_candidatesOf.mp (best_row_spec_nonempty hne).1).2
    rw [hfst, best_row_recall_eq]
    exact hrecb
  · intro hall s hs
    obtain ⟨_, hmax⟩ := best_row_spec_empty (candidatesOf_eq_nil hall)
    have hy := hmax (evalRow y_true y_proba s) (evalRow_mem_thresholdTable hs)
    have hcomp := le_components_of_not_lexLt hy
    have hf1 : (best_row y_true y_proba floor).f1 =
        f1At y_true y_proba (best_row y_true y_proba floor).threshold :=
      congrArg Row.f1 heq
    have hpr : (best_row y_true y_proba floor).precision =
        precisionAt y_true y_proba (best_row y_true y_proba floor).threshold :=
      congrArg Row.precision heq
    rw [hfst, ← hf1, ← hpr]
    exact hcomp

/-- C2: among the candidates passing the recall-floor filter (when any
pass), `choose_threshold_by_policy` selects the one with maximal F1,
breaking F1 ties by higher precision and full ties by the lowest
threshold. -/
theorem choose_threshold_tiebreak (y_true : List Bool) (y_proba : List ℚ)
    (floor : ℚ) (h : candidatesOf y_true y_proba floor ≠ []) :
    ∃ sel ∈ candidatesOf y_true y_proba floor,
      (choose_threshold_by_policy y_true y_proba floor).1 = sel.threshold ∧
      ∀ r ∈ candidatesOf y_true y_proba floor,
        r.f1 ≤ sel.f1 ∧
        (r.f1 = sel.f1 → r.precision ≤ sel.precision) ∧
        (r.f1 = sel.f1 → r.precision = sel.precision →
          sel.threshold ≤ r.threshold) := by
  obtain ⟨hmem, hmax, hfirst⟩ := best_row_spec_nonempty h
  refine ⟨best_row y_true y_proba floor, hmem, rfl, ?_⟩
  intro r hr
  have hcomp := le_components_of_not_lexLt (hmax r hr)
  refine ⟨hcomp.1, hcomp.2, ?_⟩
  intro h1 h2
  refine hfirst r hr ?_
  show (r.f1, r.precision) = _
  rw [h1, h2]
  rfl

set_option maxRecDepth 100000 in
/-- Witness for C1 at a concrete input: with one positive at probability
0.5 and floor 0.70, the selected threshold is on the grid and its recall
meets the floor. -/
theorem choose_threshold_policy_correct_witness :
    (choose_threshold_by_policy [true] [mkRat 1 2] (mkRat 7 10)).1 ∈
        thresholds ∧
      mkRat 7 10 ≤ recallAt [true] [mkRat 1 2]
        (choose_threshold_by_policy [true] [mkRat 1 2] (mkRat 7 10)).1 :=
  ⟨(choose_threshold_policy_correct [true] [mkRat 1 2] (mkRat 7 10)).1,
    (choose_threshold_policy_correct [true] [mkRat 1 2] (mkRat 7 10)).2.2.2.1
      ⟨mkRat 5 100, by decide, by decide⟩⟩

set_option maxRecDepth 100000 in
/-- Witness for C2 at a concrete input with a non-empty candidate set. -/
theorem choose_threshold_tiebreak_witness :
    ∃ sel ∈ candidatesOf [true] [mkRat 1 2] (mkRat 7 10),
      (choose_threshold_by_policy [true] [mkRat 1 2] (mkRat 7 10)).1 =
          sel.threshold ∧
        ∀ r ∈ candidatesOf [true] [mkRat 1 2] (mkRat 7 10),
          r.f1 ≤ sel.f1 ∧
          (r.f1 = sel.f1 → r.precision ≤ sel.precision) ∧
          (r.f1 = sel.f1 → r.precision = sel.precision →
            sel.threshold ≤ r.threshold) :=
  choose_threshold_tiebreak [true] [mkRat 1 2] (mkRat 7 10) (by decide)

/-- Helper for the C3 analysis: raising the recall floor from `a` to `b`
cannot lower the selected threshold's recall, provided either some grid
point reaches recall `b`, or no grid point reaches recall `a`. -/
theorem best_row_recall_mono {y_true : List Bool} {y_proba : List ℚ}
    {a b : ℚ} (hab : a ≤ b)
    (h : (∃ s ∈ thresholds, b ≤ recallAt y_true y_proba s) ∨
         (∀ s ∈ thresholds, recallAt y_true y_proba s < a)) :
    recallAt y_true y_proba (best_row y_true y_proba a).threshold ≤
      recallAt y_true y_proba (best_row y_true y_proba b).threshold := by
  rcases h with ⟨s, hs, hrec⟩ | hall
  · have hcb : evalRow y_true y_proba s ∈ candidatesOf y_true y_proba b :=
      mem_candidatesOf.mpr ⟨evalRow_mem_thresholdTable hs, hrec⟩
    have hnb : candidatesOf y_true y_proba b ≠ [] := by
      intro hnil; rw [hnil] at hcb; simp at hcb
    have hca : evalRow y_true y_proba s ∈ candidatesOf y_true y_proba a :=
      mem_candidatesOf.mpr
        ⟨evalRow_mem_thresholdTable hs, le_trans hab hrec⟩
    have hna : candidatesOf y_true y_proba a ≠ [] := by
      intro hnil; rw [hnil] at hca; simp at hca
    cases hxa : argmaxLex fpKey (candidatesOf y_true y_proba a) with
    | none => exact absurd ((argmaxLex_eq_none_iff _ _).mp hxa) hna
    | some ra =>
      have hba : best_row y_true y_proba a = ra := best_row_of_some hxa
      by_cases hr : b ≤ ra.«recall»
      · have hfilter : candidatesOf y_true y_proba b =
            (candidatesOf y_true y_proba a).filter
              (fun r => b ≤ r.«recall») := by
          unfold candidatesOf
          rw [List.filter_filter]
          refine (List.filter_congr ?_).symm
          intro r _
          by_cases hbr : b ≤ r.«recall»
          · simp [hbr, le_trans hab hbr]
          · simp [hbr]
        have hxb : argmaxLex fpKey (candidatesOf y_true y_proba b) =
            some ra := by
          rw [hfilter]
          exact argmaxLex_filter _ _ hxa (by simp [hr])
        rw [hba, best_row_of_some hxb]
      · have hrecb := (mem_candidatesOf.mp (best_row_spec_nonempty hnb).1).2
        rw [best_row_recall_eq, best_row_recall_eq, hba]
        exact le_trans (le_of_lt (not_le.mp hr)) hrecb
  · have hea : candidatesOf y_true y_proba a = [] := candidatesOf_eq_nil hall
    have heb : candidatesOf y_true y_proba b = [] :=
      candidatesOf_eq_nil (fun s hs => lt_of_lt_of_le (hall s hs) hab)
    have hsame : best_row y_true y_proba a = best_row y_true y_proba b := by
      unfold best_row
      rw [(argmaxLex_eq_none_iff _ _).mpr hea,
        (argmaxLex_eq_none_iff _ _).mpr heb]
    rw [hsame]

/-- C3 (amended): on a fixed probability/label pair, raising the recall
floor from 0.70 to 0.90 never decreases the selected threshold's recall,
provided some grid point achieves recall ≥ 0.90 or no grid point achieves
recall ≥ 0.70.  (Without that proviso the claim fails: see the
counterexample, where the 0.90 call falls back to the global F1 maximum.) -/
theorem raising_recall_floor_monotone (y_true : List Bool)
    (y_proba : List ℚ)
    (h : (∃ s ∈ thresholds, mkRat 9 10 ≤ recallAt y_true y_proba s) ∨
         (∀ s ∈ thresholds, recallAt y_true y_proba s < mkRat 7 10)) :
    recallAt y_true y_proba
        (choose_threshold_by_policy y_true y_proba (mkRat 7 10)).1 ≤
      recallAt y_true y_proba
        (choose_threshold_by_policy y_true y_proba (mkRat 9 10)).1 :=
  best_row_recall_mono
    (by rw [mkRat_eq_div_cast, mkRat_eq_div_cast]; norm_num) h

/-- Witness for C3's amended theorem at a concrete input where every grid
point has recall 1 ≥ 0.90. -/
theorem raising_recall_floor_monotone_witness :
    recallAt [true] [mkRat 19 20]
        (choose_threshold_by_policy [true] [mkRat 19 20] (mkRat 7 10)).1 ≤
      recallAt [true] [mkRat 19 20]
        (choose_threshold_by_policy [true] [mkRat 19 20] (mkRat 9 10)).1 :=
  raising_recall_floor_monotone [true] [mkRat 19 20]
    (Or.inl ⟨mkRat 5 100, by decide, by decide⟩)

/-- Label vector of the C3 counterexample: five positives and two
negatives. -/
def ctYTrue : List Bool := [true, true, true, true, true, false, false]

/-- Probability vector of the C3 counterexample: positives at 0.9, 0.9,
0.9, 0.3, 0.01 and negatives at 0.5, 0.5.  No grid threshold reaches
recall 0.9 (one positive sits below the grid); thresholds up to 0.3 have
recall 0.8; the global F1 maximum sits at threshold 0.51 with recall 0.6. -/
def ctYProba : List ℚ :=
  [mkRat 9 10, mkRat 9 10, mkRat 9 10, mkRat 3 10, mkRat 1 100,
    mkRat 1 2, mkRat 1 2]

set_option maxRecDepth 100000 in
/-- C3 counterexample: raising the recall floor from 0.70 to 0.90 on this
pair strictly decreases the selected threshold's recall (0.8 down to 0.6),
refuting the claim as stated. -/
theorem raising_recall_floor_not_monotone :
    ¬ (recallAt ctYTrue ctYProba
          (choose_threshold_by_policy ctYTrue ctYProba (mkRat 7 10)).1 ≤
        recallAt ctYTrue ctYProba
          (choose_threshold_by_policy ctYTrue ctYProba (mkRat 9 10)).1) := by
  decide

/-! ### `TopCategoryReducer` (train.py) and its serving-side variant -/

/-- A categorical data frame: column name to list of cells; a missing
value (NaN) is `none`. -/
abbrev CatFrame := List (String × List (Option String))

/-- Occurrence count of the value `v` in the list `vs`. -/
def countVal (vs : List String) (v : String) : ℕ :=
  (vs.filter (fun w => w = v)).length

/-- Distinct values of a list in order of first occurrence. -/
def firstDedup : List String → List String
  | [] => []
  | x :: xs => x :: (firstDedup xs).filter (fun y => y ≠ x)

/-- Stable descending insertion by count: `p` goes in front of the first
element with a strictly smaller count. -/
def insertDescBy {α : Type} (cnt : α → ℕ) (p : α) : List α → List α
  | [] => [p]
  | q :: qs => if cnt q < cnt p then p :: q :: qs else q :: insertDescBy cnt p qs

/-- Stable descending insertion sort by count. -/
def sortByCountDesc {α : Type} (cnt : α → ℕ) : List α → List α
  | [] => []
  | x :: xs => insertDescBy cnt x (sortByCountDesc cnt xs)

/-- `pandas.Series.value_counts` on a series of plain strings: pairs
(value, count) for the distinct values, sorted by count descending.
pandas does not pin down the order of count ties; this model keeps
first-occurrence order among ties, and the theorems below use only
tie-agnostic properties. -/
def value_counts_str (vs : List String) : List (String × ℕ) :=
  sortByCountDesc Prod.snd ((firstDedup vs).map (fun v => (v, countVal vs v)))

/-- `value_counts(dropna=True)` on a series with missing values. -/
def value_counts (cells : List (Option String)) : List (String × ℕ) :=
  value_counts_str (cells.filterMap id)

/-- Association-list lookup with a default, as `dict.get(col, set())`. -/
def dictGetD (d : List (String × List String)) (k : String) : List String :=
  match d.find? (fun p => p.1 = k) with
  | some p => p.2
  | none => []

/-- The `TopCategoryReducer` of `src/train.py`. -/
structure TopCategoryReducer where
  top_k : ℕ
  other_label : String
  keep_values_ : List (String × List String)
  deriving DecidableEq, Repr

/-- `TopCategoryReducer.__init__`: `keep_values_` starts out empty. -/
def mkTopCategoryReducer (top_k : ℕ) (other_label : String) :
    TopCategoryReducer :=
  { top_k := top_k, other_label := other_label, keep_values_ := [] }

/-- `TopCategoryReducer()` with the default arguments
`top_k=30, other_label="Other"`. -/
def defaultTopCategoryReducer : TopCategoryReducer :=
  mkTopCategoryReducer 30 "Other"


/-- `TopCategoryReducer.fit`: per column, the distinct values of the
`dropna` value counts' first `top_k` rows. -/
def TopCategoryReducer.fit (r : TopCategoryReducer) (X : CatFrame) :
    TopCategoryReducer :=
  { r with
    keep_values_ :=
      X.map (fun c => (c.1, ((value_counts c.2).take r.top_k).map Prod.fst)) }

/-- One cell of `TopCategoryReducer.transform`: the mask
`s.notna() & ~s.isin(keep)` selects the cells overwritten with
`other_label`. -/
def transformCell (other : String) (keep : List String)
    (cell : Option String) : Option String :=
  if (match cell with
      | some v => !(keep.contains v)
      | none => false) = true
  then some other else cell

/-- `TopCategoryReducer.transform`: per column, overwrite the masked
cells; an unknown column name falls back to the empty vocabulary
(`self.keep_values_.get(col, set())`). -/
def TopCategoryReducer.transform (r : TopCategoryReducer) (X : CatFrame) :
    CatFrame :=
  X.map (fun c =>
    (c.1, c.2.map (transformCell r.other_label (dictGetD r.keep_values_ c.1))))

/-- The Python exceptions distinguished by the C4 analysis. -/
inductive PyError where
  | attributeError
  | notFittedError
  deriving DecidableEq, Repr

/-- `str(x)` on a possibly-missing pandas cell: `astype(str)` renders a
missing value as the literal string "nan". -/
def pyStr (cell : Option String) : String :=
  match cell with
  | some v => v
  | none => "nan"

/-- The `TopCategoryReducer` of
`src/readmission_risk/custom_transformers.py`, whose fitted state
`top_categories_` is initialised to `None`. -/
structure CtTopCategoryReducer where
  top_k : ℕ
  other_label : String
  top_categories_ : Option (List (String × List String))
  deriving DecidableEq, Repr

/-- `__init__` of the variant: `top_categories_ = None`,
`other_label = "__OTHER__"`. -/
def mkCtTopCategoryReducer (top_k : ℕ) (other_label : String) :
    CtTopCategoryReducer :=
  { top_k := top_k, other_label := other_label, top_categories_ := none }

/-- The variant `TopCategoryReducer()` with its default arguments
`top_k=30, other_label="__OTHER__"`. -/
def defaultCtTopCategoryReducer : CtTopCategoryReducer :=
  mkCtTopCategoryReducer 30 "__OTHER__"


/-- `fit` of the variant: counts are taken over `astype(str)` of the
column — a missing value is counted as the string "nan"
(`value_counts(dropna=False)` after `astype(str)`). -/
def CtTopCategoryReducer.fit (r : CtTopCategoryReducer) (X : CatFrame) :
    CtTopCategoryReducer :=
  { r with
    top_categories_ :=
      some (X.map (fun c =>
        (c.1,
          ((value_counts_str (c.2.map pyStr)).take r.top_k).map Prod.fst))) }

/-- `transform` of the variant: every cell is passed through
`astype(str)` (so a missing value becomes "nan") and replaced by
`other_label` unless it is in the column's allowed set.  On an unfitted
instance the first column's `self.top_categories_.get` raises
`AttributeError` (`None` has no `.get`); a frame with no columns never
reaches that call. -/
def CtTopCategoryReducer.transform (r : CtTopCategoryReducer) (X : CatFrame) :
    Except PyError (List (String × List String)) :=
  if X = [] then .ok []
  else
    match r.top_categories_ with
    | none => .error .attributeError
    | some tc =>
      .ok (X.map (fun c =>
        let allowed := dictGetD tc c.1
        (c.1, c.2.map (fun cell =>
          let s := pyStr cell
          if allowed.contains s then s else r.other_label))))

/-! ### Lemmas about `firstDedup`, the count sort and `value_counts` -/

theorem mem_firstDedup {v : String} : ∀ {l : List String},
    v ∈ firstDedup l ↔ v ∈ l := by
  intro l
  induction l with
  | nil => simp [firstDedup]
  | cons x xs ih =>
    simp only [firstDedup, List.mem_cons, List.mem_filter]
    constructor
    · rintro (rfl | ⟨hv, _⟩)
      · exact Or.inl rfl
      · exact Or.inr (ih.mp hv)
    · rintro (rfl | hv)
      · exact Or.inl rfl
      · by_cases hx : v = x
        · exact Or.inl hx
        · exact Or.inr ⟨ih.mpr hv, by simp [hx]⟩

theorem nodup_firstDedup : ∀ (l : List String), (firstDedup l).Nodup := by
  intro l
  induction l with
  | nil => simp [firstDedup]
  | cons x xs ih =>
    simp only [firstDedup]
    refine List.Nodup.cons ?_ (ih.filter _)
    intro hx
    have := (List.mem_filter.mp hx).2
    simp at this

theorem insertDescBy_perm {α : Type} (cnt : α → ℕ) (p : α) :
    ∀ (l : List α), List.Perm (insertDescBy cnt p l) (p :: l) := by
  intro l
  induction l with
  | nil => simp [insertDescBy]
  | cons q qs ih =>
    simp only [insertDescBy]
    by_cases h : cnt q < cnt p
    · simp [h]
    · rw [if_neg h]
      exact (ih.cons q).trans (List.Perm.swap p q qs)

theorem sortByCountDesc_perm {α : Type} (cnt : α → ℕ) :
    ∀ (l : List α), List.Perm (sortByCountDesc cnt l) l := by
  intro l
  induction l with
  | nil => simp [sortByCountDesc]
  | cons x xs ih =>
    exact (insertDescBy_perm cnt x _).trans (ih.cons x)

theorem insertDescBy_sorted {α : Type} (cnt : α → ℕ) (p : α) :
    ∀ {l : List α}, l.Pairwise (fun a b => cnt b ≤ cnt a) →
      (insertDescBy cnt p l).Pairwise (fun a b => cnt b ≤ cnt a) := by
  intro l
  induction l with
  | nil => intro _; simp [insertDescBy]
  | cons q qs ih =>
    intro hs
    have hq := List.pairwise_cons.mp hs
    simp only [insertDescBy]
    by_cases h : cnt q < cnt p
    · rw [if_pos h]
      refine List.pairwise_cons.mpr ⟨?_, hs⟩
      intro y hy
      rcases List.mem_cons.mp hy with rfl | hy
      · exact le_of_lt h
      · exact le_trans (hq.1 y hy) (le_of_lt h)
    · rw [if_neg h]
      refine List.pairwise_cons.mpr ⟨?_, ih hq.2⟩
      intro y hy
      have hy' := (insertDescBy_perm cnt p qs).mem_iff.mp hy
      rcases List.mem_cons.mp hy' with rfl | hy'
      · exact not_lt.mp h
      · exact hq.1 y hy'

theorem sortByCountDesc_sorted {α : Type} (cnt : α → ℕ) :
    ∀ (l : List α),
      (sortByCountDesc cnt l).Pairwise (fun a b => cnt b ≤ cnt a) := by
  intro l
  induction l with
  | nil => simp [sortByCountDesc]
  | cons x xs ih => exact insertDescBy_sorted cnt x ih

theorem value_counts_str_perm (vs : List String) :
    List.Perm (value_counts_str vs)
      ((firstDedup vs).map (fun v => (v, countVal vs v))) :=
  sortByCountDesc_perm _ _

theorem mem_value_counts_str {vs : List String} {q : String × ℕ}
    (h : q ∈ value_counts_str vs) :
    q.1 ∈ vs ∧ q.2 = countVal vs q.1 := by
  have := (value_counts_str_perm vs).mem_iff.mp h
  obtain ⟨v, hv, rfl⟩ := List.mem_map.mp this
  exact ⟨mem_firstDedup.mp hv, rfl⟩

theorem value_counts_str_fst_nodup (vs : List String) :
    ((value_counts_str vs).map Prod.fst).Nodup := by
  have hperm : List.Perm ((value_counts_str vs).map Prod.fst)
      (((firstDedup vs).map (fun v => (v, countVal vs v))).map Prod.fst) :=
    (value_counts_str_perm vs).map Prod.fst
  refine hperm.nodup_iff.mpr ?_
  rw [List.map_map]
  rw [show (Prod.fst ∘ fun v => (v, countVal vs v)) = id from rfl, List.map_id]
  exact nodup_firstDedup vs

theorem value_counts_str_length (vs : List String) :
    (value_counts_str vs).length = (firstDedup vs).length := by
  rw [(value_counts_str_perm vs).length_eq, List.length_map]

theorem find_map_nodup {α β : Type} (key : α → String) (g : α → β) :
    ∀ {X : List α} {p : α}, p ∈ X → (X.map key).Nodup →
      (X.map (fun c => (key c, g c))).find? (fun q => q.1 = key p) =
        some (key p, g p) := by
  intro X
  induction X with
  | nil => intro p hp _; simp at hp
  | cons c X' ih =>
    intro p hp hnd
    rw [List.map_cons] at hnd
    rcases List.mem_cons.mp hp with rfl | hp'
    · simp [List.find?]
    · have hne : ¬ (key c = key p) := by
        intro he
        have hmem : key p ∈ X'.map key := List.mem_map.mpr ⟨p, hp', rfl⟩
        exact (List.nodup_cons.mp hnd).1 (he ▸ hmem)
      rw [List.map_cons, List.find?_cons_of_neg _ (by simp [hne])]
      exact ih hp' (List.nodup_cons.mp hnd).2

theorem transformCell_eq (other : String) (keep : List String)
    (cell : Option String) :
    transformCell other keep cell =
      (match cell with
        | none => none
        | some v => if v ∈ keep then some v else some other) := by
  cases cell with
  | none => rfl
  | some v =>
    simp only [transformCell]
    by_cases h : v ∈ keep <;> simp [h]

/-- C4 (amended): calling `transform` before `fit` does not raise
`NotFittedError` on either implementation.  The train.py reducer does not
fail at all: with its unfitted empty vocabulary it maps every non-missing
value to "Other" and passes missing values through.  The serving-side
variant fails on any frame with at least one column, but with
`AttributeError` (`None` has no attribute `get`), not `NotFittedError`. -/
theorem transform_before_fit_behavior (X : CatFrame) :
    TopCategoryReducer.transform defaultTopCategoryReducer X =
        X.map (fun c => (c.1, c.2.map (fun cell =>
          match cell with
          | none => none
          | some _ => some "Other"))) ∧
      (X ≠ [] →
        CtTopCategoryReducer.transform defaultCtTopCategoryReducer X =
          .error .attributeError) := by
  constructor
  · unfold TopCategoryReducer.transform
    refine List.map_congr_left ?_
    intro c _
    have hkeep : dictGetD defaultTopCategoryReducer.keep_values_ c.1 = [] := rfl
    rw [hkeep]
    congr 1
    refine List.map_congr_left ?_
    intro cell _
    rw [transformCell_eq]
    cases cell <;> simp [defaultTopCategoryReducer, mkTopCategoryReducer]
  · intro hne
    unfold CtTopCategoryReducer.transform
    rw [if_neg hne]
    rfl

instance {ε α : Type} [DecidableEq ε] [DecidableEq α] (x y : Except ε α) :
    Decidable (x = y) := by
  cases x <;> cases y
  case error.error e e' => exact decidable_of_iff (e = e') (by simp)
  case error.ok e a => exact isFalse (by simp)
  case ok.error a e => exact isFalse (by simp)
  case ok.ok a a' => exact decidable_of_iff (a = a') (by simp)

/-- C4 counterexample: on a concrete unfitted instance, the train.py
`transform` succeeds (no exception of any kind), and the variant fails
with `AttributeError` rather than `NotFittedError`. -/
theorem transform_before_fit_no_error :
    TopCategoryReducer.transform defaultTopCategoryReducer
        [("c", [some "x"])] = [("c", [some "Other"])] ∧
      CtTopCategoryReducer.transform defaultCtTopCategoryReducer
          [("c", [some "x"])] = .error .attributeError := by
  decide

/-- Witness for C4's amended theorem on a concrete non-empty frame. -/
theorem transform_before_fit_behavior_witness :
    CtTopCategoryReducer.transform defaultCtTopCategoryReducer
        [("c", [none])] = .error .attributeError :=
  (transform_before_fit_behavior [("c", [none])]).2 (by decide)

/-- The vocabulary that `fit` (with `other_label="Other"`) learns for one
column. -/
def fittedVocab (K : ℕ) (X : CatFrame) (col : String) : List String :=
  dictGetD ((mkTopCategoryReducer K "Other").fit X).keep_values_ col

theorem fittedVocab_eq {K : ℕ} {X : CatFrame}
    {p : String × List (Option String)} (hp : p ∈ X)
    (hnd : (X.map Prod.fst).Nodup) :
    fittedVocab K X p.1 = ((value_counts p.2).take K).map Prod.fst := by
  unfold fittedVocab dictGetD
  rw [show ((mkTopCategoryReducer K "Other").fit X).keep_values_ =
      X.map (fun c => (c.1, ((value_counts c.2).take K).map Prod.fst)) from rfl]
  rw [find_map_nodup Prod.fst _ hp hnd]

/-- C5 (amended, for the train.py `TopCategoryReducer` used by the
training pipeline): `fit` retains, per column, at most K values, all
occurring among the column's non-missing entries, as many as there are
distinct non-missing values up to K, without duplicates, and each at
least as frequent (among non-missing entries) as every excluded value;
`transform` of the fitted reducer never fails, maps every non-missing
value outside the vocabulary (seen or unseen at fit time) to "Other", and
passes missing values through unchanged.  (The serving-side variant does
not satisfy this: see the counterexample.) -/
theorem fitted_reducer_spec (K : ℕ) (X : CatFrame)
    (hnd : (X.map Prod.fst).Nodup) :
    (∀ p ∈ X,
      (∀ v ∈ fittedVocab K X p.1, some v ∈ p.2) ∧
      (fittedVocab K X p.1).length =
        min K (firstDedup (p.2.filterMap id)).length ∧
      (fittedVocab K X p.1).Nodup ∧
      (∀ v ∈ fittedVocab K X p.1, ∀ w : String, some w ∈ p.2 →
        w ∉ fittedVocab K X p.1 →
        countVal (p.2.filterMap id) w ≤ countVal (p.2.filterMap id) v)) ∧
    (∀ X' : CatFrame,
      ((mkTopCategoryReducer K "Other").fit X).transform X' =
        X'.map (fun c => (c.1, c.2.map (fun cell =>
          match cell with
          | none => none
          | some v =>
            if v ∈ fittedVocab K X c.1 then some v
            else some "Other")))) := by
  constructor
  · intro p hp
    have hvocab := fittedVocab_eq (K := K) hp hnd
    refine ⟨?_, ?_, ?_, ?_⟩
    · intro v hv
      rw [hvocab] at hv
      obtain ⟨q, hq, rfl⟩ := List.mem_map.mp hv
      have hqs : q ∈ value_counts p.2 := List.mem_of_mem_take hq
      have hq1 := (mem_value_counts_str hqs).1
      obtain ⟨a, ha, ha'⟩ := List.mem_filterMap.mp hq1
      rw [show id a = a from rfl] at ha'
      rw [← ha']
      exact ha
    · rw [hvocab, List.length_map, List.length_take]
      rw [show value_counts p.2 = value_counts_str (p.2.filterMap id) from rfl]
      rw [value_counts_str_length]
    · rw [hvocab, List.map_take]
      exact ((value_counts_str_fst_nodup _).sublist (List.take_sublist _ _))
    · intro v hv w hw hwnot
      rw [hvocab] at hv hwnot
      obtain ⟨qv, hqv, rfl⟩ := List.mem_map.mp hv
      have hwvs : w ∈ p.2.filterMap id := List.mem_filterMap.mpr ⟨some w, hw, rfl⟩
      have hwpair : (w, countVal (p.2.filterMap id) w) ∈
          value_counts p.2 :=
        (value_counts_str_perm _).mem_iff.mpr
          (List.mem_map.mpr ⟨w, mem_firstDedup.mpr hwvs, rfl⟩)
      have hsplit := (List.take_append_drop K (value_counts p.2)).symm
      have hsorted := sortByCountDesc_sorted (Prod.snd)
        ((firstDedup (p.2.filterMap id)).map
          (fun u => (u, countVal (p.2.filterMap id) u)))
      rw [show sortByCountDesc Prod.snd
          ((firstDedup (p.2.filterMap id)).map
            (fun u => (u, countVal (p.2.filterMap id) u))) =
          value_counts p.2 from rfl, hsplit] at hsorted
      obtain ⟨_, _, hcross⟩ := List.pairwise_append.mp hsorted
      have hwdrop : (w, countVal (p.2.filterMap id) w) ∈
          (value_counts p.2).drop K := by
        rcases List.mem_append.mp (hsplit ▸ hwpair) with htk | hdp
        · exact absurd (List.mem_map.mpr ⟨_, htk, rfl⟩) hwnot
        · exact hdp
      have hle := hcross qv hqv _ hwdrop
      have hqv2 := (mem_value_counts_str (List.mem_of_mem_take hqv)).2
      rw [← hqv2]
      exact hle
  · intro X'
    unfold TopCategoryReducer.transform
    refine List.map_congr_left ?_
    intro c _
    congr 1
    refine List.map_congr_left ?_
    intro cell _
    rw [transformCell_eq]
    cases cell <;> rfl

/-- C5 counterexample: the serving-side variant violates the claim at a
concrete input.  Fitted with `top_k=1` on a column holding one "a" and
two missing cells, its vocabulary is {"nan"} — the missing entries were
counted, rendered as the string "nan" — rather than the most frequent
value among non-missing entries ({"a"}); its transform then maps the
non-missing "a" to "__OTHER__", not "Other", and turns a missing cell
into the string "nan" instead of passing it through unchanged. -/
theorem ct_reducer_violates_spec :
    (CtTopCategoryReducer.fit (mkCtTopCategoryReducer 1 "__OTHER__")
        [("c", [some "a", none, none])]).top_categories_ =
        some [("c", ["nan"])] ∧
      CtTopCategoryReducer.transform
          (CtTopCategoryReducer.fit (mkCtTopCategoryReducer 1 "__OTHER__")
            [("c", [some "a", none, none])])
          [("c", [some "a", none])] =
        .ok [("c", ["__OTHER__", "nan"])] := by
  decide

/-- Witness for C5's amended theorem: a fitted reducer maps the unseen
value "b" to "Other", keeps the fitted value "a" and passes the missing
cell through. -/
theorem fitted_reducer_spec_witness :
    ((mkTopCategoryReducer 1 "Other").fit [("c", [some "a"])]).transform
        [("c", [some "a", some "b", none])] =
      [("c", [some "a", some "Other", none])] := by
  have h := (fitted_reducer_spec 1 [("c", [some "a"])] (by decide)).2
    [("c", [some "a", some "b", none])]
  rw [h]
  decide

/-! ### `prepare_xy` (train.py) -/

/-- A numeric data frame for `prepare_xy`: column name to list of cells.
Cell values are irrelevant to the schema behaviour under scrutiny;
`astype(int)` on the already-integral target column is the identity. -/
abbrev IntFrame := List (String × List ℤ)

/-- The literal `drop_cols` list of `prepare_xy`: leakage and identifier
columns. -/
def drop_cols_base : List String :=
  ["readmitted", "readmission_30d", "readmission_any",
    "encounter_id", "patient_nbr"]

/-- `prepare_xy` from `src/train.py`: raise `ValueError` when the target
column is absent; otherwise take the target as `y` and drop the leakage
and identifier columns that are present to form `X`. -/
def prepare_xy (df : IntFrame) (target_col : String) :
    Except String (IntFrame × List ℤ) :=
  if ¬ (target_col ∈ df.map Prod.fst) then
    .error ("Target column not found: " ++ target_col)
  else
    let y := match df.find? (fun c => c.1 = target_col) with
      | some c => c.2
      | none => []
    let drop_cols := drop_cols_base.filter
      (fun c => c ∈ df.map Prod.fst)
    let X := df.filter (fun c => ¬ (c.1 ∈ drop_cols))
    .ok (X, y)

/-- C6 (amended): `prepare_xy` fails — with the schema error the spec
calls `SchemaError` (a `ValueError` in the code) — precisely when the
target column is absent.  Absence of the identifier columns
`encounter_id` / `patient_nbr` never causes a failure: they are dropped
only when present and silently skipped otherwise. -/
theorem prepare_xy_error_iff (df : IntFrame) (target_col : String) :
    (∃ e, prepare_xy df target_col = .error e) ↔
      target_col ∉ df.map Prod.fst := by
  unfold prepare_xy
  by_cases h : target_col ∈ df.map Prod.fst
  · simp [h]
  · simp [h]

/-- C6 counterexample: a frame containing the target but neither
identifier column is accepted without any error; `prepare_xy` returns the
feature matrix (target dropped) and the target vector. -/
theorem prepare_xy_missing_identifiers_ok :
    prepare_xy
        [("readmission_30d", [1, 0]), ("num_lab_procedures", [5, 7])]
        "readmission_30d" =
      .ok ([("num_lab_procedures", [5, 7])], [1, 0]) := by
  decide

/-! ### Model selection in `main` (train.py) -/

/-- The per-candidate cross-validation result record of `train.py`. -/
structure CVResult where
  model_name : String
  roc_auc : ℚ
  pr_auc : ℚ
  precision : ℚ
  «recall» : ℚ
  f1 : ℚ
  threshold : ℚ
  deriving DecidableEq, Repr

/-- Sort key of `main`'s candidate ranking: (PR-AUC, ROC-AUC). -/
def prKey (r : CVResult) : ℚ × ℚ := (r.pr_auc, r.roc_auc)

/-- The selection step of `main`: each candidate contributes its
`CVResult` and its threshold table (the `results` list and the
`threshold_tables` dict are filled by the same loop).  `main` sorts the
results by (PR-AUC, ROC-AUC) descending — a stable pandas lexsort — and
takes row 0's `model_name` and `threshold`, then looks the threshold
table up by that name. -/
def select_best (entries : List (CVResult × List Row)) :
    Option (String × ℚ × List Row) :=
  match argmaxLex prKey (entries.map Prod.fst) with
  | none => none
  | some best =>
    match (entries.map (fun e => (e.1.model_name, e.2))).find?
        (fun p => p.1 = best.model_name) with
    | none => none
    | some p => some (best.model_name, best.threshold, p.2)

/-- C9: with pairwise-distinct model names (the models come from a dict
keyed by name), the selection step returns the model name, the threshold
and the threshold table all belonging to one single entry, and that
entry's (PR-AUC, ROC-AUC) pair is maximal — PR-AUC first, ROC-AUC as the
tie-break — over all entries. -/
theorem select_best_spec (entries : List (CVResult × List Row))
    (hne : entries ≠ [])
    (hnd : (entries.map (fun e => e.1.model_name)).Nodup) :
    ∃ e ∈ entries,
      select_best entries = some (e.1.model_name, e.1.threshold, e.2) ∧
      ∀ e' ∈ entries,
        (e'.1.pr_auc ≤ e.1.pr_auc ∧
          (e'.1.pr_auc = e.1.pr_auc → e'.1.roc_auc ≤ e.1.roc_auc)) := by
  cases hx : argmaxLex prKey (entries.map Prod.fst) with
  | none =>
    have := (argmaxLex_eq_none_iff _ _).mp hx
    rw [List.map_eq_nil_iff] at this
    exact absurd this hne
  | some best =>
    obtain ⟨e, he, hbe⟩ := List.mem_map.mp (argmaxLex_mem _ hx)
    refine ⟨e, he, ?_, ?_⟩
    · have hfind : (entries.map (fun en => (en.1.model_name, en.2))).find?
          (fun p => p.1 = e.1.model_name) = some (e.1.model_name, e.2) :=
        find_map_nodup (fun en => en.1.model_name) (fun en => en.2) he hnd
      unfold select_best
      rw [hx, ← hbe]
      show (match (entries.map (fun en => (en.1.model_name, en.2))).find?
          (fun p => p.1 = e.1.model_name) with
        | none => none
        | some p => some (e.1.model_name, e.1.threshold, p.2)) =
          some (e.1.model_name, e.1.threshold, e.2)
      rw [hfind]
    · intro e' he'
      have hmax := argmaxLex_not_lexLt _ hx e'.1
        (List.mem_map.mpr ⟨e', he', rfl⟩)
      rw [← hbe] at hmax
      exact le_components_of_not_lexLt hmax

/-- A concrete logistic-regression CVResult used by the C9 witness. -/
def cvLogreg : CVResult :=
  { model_name := "logreg", roc_auc := mkRat 66 100, pr_auc := mkRat 30 100,
    precision := mkRat 25 100, «recall» := mkRat 70 100,
    f1 := mkRat 37 100, threshold := mkRat 35 100 }

/-- A concrete random-forest CVResult used by the C9 witness. -/
def cvRf : CVResult :=
  { model_name := "rf", roc_auc := mkRat 64 100, pr_auc := mkRat 33 100,
    precision := mkRat 27 100, «recall» := mkRat 71 100,
    f1 := mkRat 39 100, threshold := mkRat 41 100 }

/-- Witness for C9 on two concrete candidates: "rf" has the higher
PR-AUC and is selected together with its own threshold and table. -/
theorem select_best_spec_witness :
    ∃ e ∈ [(cvLogreg, ([] : List Row)), (cvRf, ([] : List Row))],
      select_best [(cvLogreg, ([] : List Row)), (cvRf, ([] : List Row))] =
          some (e.1.model_name, e.1.threshold, e.2) ∧
        ∀ e' ∈ [(cvLogreg, ([] : List Row)), (cvRf, ([] : List Row))],
          (e'.1.pr_auc ≤ e.1.pr_auc ∧
            (e'.1.pr_auc = e.1.pr_auc → e'.1.roc_auc ≤ e.1.roc_auc)) :=
  select_best_spec _ (by decide) (by decide)

/-! ### `make_input_frame` (app/model_loader.py) -/

/-- `d[k] = v` on a Python dict modelled as an insertion-ordered
association list: overwrite in place when the key exists, append
otherwise. -/
def dictSet {α : Type} (d : List (String × α)) (k : String) (v : α) :
    List (String × α) :=
  if d.any (fun p => p.1 = k) then
    d.map (fun p => if p.1 = k then (k, v) else p)
  else d ++ [(k, v)]

/-- `make_input_frame` from `app/model_loader.py`: start from
`{c: None for c in feature_columns}`, write each provided feature over
it, and read the row back as a 1-row frame in schema-column order
(`pd.DataFrame([row], columns=feature_columns)`). -/
def make_input_frame {α : Type} (feature_columns : List String)
    (provided_features : List (String × α)) : List (String × Option α) :=
  let row0 : List (String × Option α) :=
    feature_columns.foldl (fun d c => dictSet d c none) []
  let row := provided_features.foldl
    (fun d p => dictSet d p.1 (some p.2)) row0
  feature_columns.map (fun c =>
    (c, match row.find? (fun p => p.1 = c) with
      | some p => p.2
      | none => none))

theorem find?_overwrite_self {α : Type} {k : String} (v : α) :
    ∀ {d : List (String × α)}, d.any (fun p => p.1 = k) = true →
      (d.map (fun p => if p.1 = k then (k, v) else p)).find?
        (fun p => p.1 = k) = some (k, v) := by
  intro d
  induction d with
  | nil => intro h; simp at h
  | cons q qs ih =>
    intro h
    by_cases hq : q.1 = k
    · simp [hq, List.find?]
    · rw [List.map_cons, if_neg hq,
        List.find?_cons_of_neg _ (by simp [hq])]
      refine ih ?_
      rcases List.any_eq_true.mp h with ⟨p, hp, hpk⟩
      rcases List.mem_cons.mp hp with rfl | hp'
      · exact absurd (of_decide_eq_true hpk) hq
      · exact List.any_eq_true.mpr ⟨p, hp', hpk⟩

theorem find?_overwrite_ne {α : Type} {k c : String} (hne : c ≠ k) (v : α) :
    ∀ (d : List (String × α)),
      (d.map (fun p => if p.1 = k then (k, v) else p)).find?
        (fun p => p.1 = c) = d.find? (fun p => p.1 = c) := by
  intro d
  induction d with
  | nil => rfl
  | cons q qs ih =>
    by_cases hq : q.1 = k
    · rw [List.map_cons, if_pos hq,
        List.find?_cons_of_neg _ (by simp [Ne.symm hne]),
        List.find?_cons_of_neg _ (by simp [hq, Ne.symm hne])]
      exact ih
    · rw [List.map_cons, if_neg hq]
      by_cases hqc : q.1 = c
      · rw [List.find?_cons_of_pos _ (by simp [hqc]),
          List.find?_cons_of_pos _ (by simp [hqc])]
      · rw [List.find?_cons_of_neg _ (by simp [hqc]),
          List.find?_cons_of_neg _ (by simp [hqc])]
        exact ih

theorem find?_dictSet_self {α : Type} (d : List (String × α)) (k : String)
    (v : α) :
    (dictSet d k v).find? (fun p => p.1 = k) = some (k, v) := by
  unfold dictSet
  by_cases h : d.any (fun p => p.1 = k)
  · rw [if_pos h]
    exact find?_overwrite_self v h
  · rw [if_neg h]
    have hnone : d.find? (fun p => p.1 = k) = none := by
      rw [List.find?_eq_none]
      intro x hx hpx
      exact h (List.any_eq_true.mpr ⟨x, hx, hpx⟩)
    rw [List.find?_append, hnone]
    simp [List.find?]

theorem find?_dictSet_ne {α : Type} (d : List (String × α)) {k c : String}
    (hne : c ≠ k) (v : α) :
    (dictSet d k v).find? (fun p => p.1 = c) =
      d.find? (fun p => p.1 = c) := by
  unfold dictSet
  by_cases h : d.any (fun p => p.1 = k)
  · rw [if_pos h]
    exact find?_overwrite_ne hne v d
  · rw [if_neg h]
    rw [List.find?_append]
    rw [List.find?_cons_of_neg _ (by simp [Ne.symm hne])]
    simp [List.find?]

theorem find?_foldl_dictSet_of_not_mem {α : Type} {c : String}
    {l : List (String × α)} (hc : c ∉ l.map Prod.fst) :
    ∀ (d : List (String × Option α)),
      (l.foldl (fun d p => dictSet d p.1 (some p.2)) d).find?
          (fun p => p.1 = c) =
        d.find? (fun p => p.1 = c) := by
  induction l with
  | nil => intro d; rfl
  | cons q qs ih =>
    intro d
    have hcq : c ≠ q.1 := by
      intro he
      exact hc (List.mem_map.mpr ⟨q, List.mem_cons_self q qs, he.symm⟩)
    have hcqs : c ∉ qs.map Prod.fst := by
      intro hmem
      exact hc (List.map_cons Prod.fst q qs ▸ List.mem_cons_of_mem _ hmem)
    rw [List.foldl_cons, ih hcqs, find?_dictSet_ne _ hcq]

theorem find?_foldl_dictSet_of_mem {α : Type} {c : String} {v : α}
    {l : List (String × α)} (hl : (l.map Prod.fst).Nodup)
    (hcv : (c, v) ∈ l) :
    ∀ (d : List (String × Option α)),
      (l.foldl (fun d p => dictSet d p.1 (some p.2)) d).find?
          (fun p => p.1 = c) = some (c, some v) := by
  induction l with
  | nil => intro d; simp at hcv
  | cons q qs ih =>
    intro d
    rw [List.map_cons] at hl
    rcases List.mem_cons.mp hcv with rfl | hcv'
    · have hcqs : c ∉ qs.map Prod.fst := (List.nodup_cons.mp hl).1
      rw [List.foldl_cons,
        find?_foldl_dictSet_of_not_mem hcqs, find?_dictSet_self]
    · rw [List.foldl_cons]
      exact ih (List.nodup_cons.mp hl).2 hcv' _

theorem find?_foldl_cols_of_not_mem {α : Type} {c : String}
    {cols : List String} (hc : c ∉ cols) :
    ∀ (d : List (String × Option α)),
      (cols.foldl (fun d c' => dictSet d c' none) d).find?
          (fun p => p.1 = c) = d.find? (fun p => p.1 = c) := by
  induction cols with
  | nil => intro d; rfl
  | cons x xs ih =>
    intro d
    have hcx : c ≠ x := by
      intro he
      exact hc (he ▸ List.mem_cons_self x xs)
    rw [List.foldl_cons, ih (fun hmem => hc (List.mem_cons_of_mem _ hmem)),
      find?_dictSet_ne _ hcx]

theorem find?_row0 {α : Type} {c : String} :
    ∀ {cols : List String} (d : List (String × Option α)), c ∈ cols →
      (cols.foldl (fun d c' => dictSet d c' none) d).find?
          (fun p => p.1 = c) = some (c, none) := by
  intro cols
  induction cols with
  | nil => intro d h; simp at h
  | cons x xs ih =>
    intro d hc
    rw [List.foldl_cons]
    by_cases hmem : c ∈ xs
    · exact ih _ hmem
    · have hcx : c = x := by
        rcases List.mem_cons.mp hc with h | h
        · exact h
        · exact absurd h hmem
      subst hcx
      rw [find?_foldl_cols_of_not_mem hmem, find?_dictSet_self]

theorem map_fst_map_pair {β γ : Type} (cols : List β) (g : β → γ) :
    (cols.map (fun c => (c, g c))).map Prod.fst = cols := by
  induction cols with
  | nil => rfl
  | cons x xs ih => simp [ih]

theorem find?_key_of_mem_nodup {α : Type} {l : List (String × α)}
    {p : String × α} (hnd : (l.map Prod.fst).Nodup) (hp : p ∈ l) :
    l.find? (fun q => q.1 = p.1) = some p := by
  induction l with
  | nil => simp at hp
  | cons q qs ih =>
    rw [List.map_cons] at hnd
    rcases List.mem_cons.mp hp with rfl | hp'
    · exact List.find?_cons_of_pos _ (by simp)
    · have hne : ¬ (q.1 = p.1) := by
        intro he
        exact (List.nodup_cons.mp hnd).1
          (he ▸ List.mem_map.mpr ⟨p, hp', rfl⟩)
      rw [List.find?_cons_of_neg _ (by simp [hne])]
      exact ih (List.nodup_cons.mp hnd).2 hp'

/-- With duplicate-free keys, the row built by `make_input_frame` reads
back, per schema column, the provided value when the column was provided
and `None` otherwise. -/
theorem make_input_frame_eq {α : Type} (cols : List String)
    (provided : List (String × α))
    (hnd : (provided.map Prod.fst).Nodup) :
    make_input_frame cols provided =
      cols.map (fun c =>
        (c, match provided.find? (fun p => p.1 = c) with
          | some p => some p.2
          | none => none)) := by
  unfold make_input_frame
  refine List.map_congr_left ?_
  intro c hc
  by_cases hmem : c ∈ provided.map Prod.fst
  · obtain ⟨p, hp, rfl⟩ := List.mem_map.mp hmem
    rw [find?_foldl_dictSet_of_mem hnd hp _, find?_key_of_mem_nodup hnd hp]
  · have hfnone : provided.find? (fun q => q.1 = c) = none := by
      rw [List.find?_eq_none]
      intro x hx hpx
      exact hmem (List.mem_map.mpr ⟨x, hx, of_decide_eq_true hpx⟩)
    rw [find?_foldl_dictSet_of_not_mem hmem _, find?_row0 _ hc, hfnone]

/-- C10: for a schema column list and a provided-feature mapping with
duplicate-free keys all lying in the schema, `make_input_frame` yields a
row whose columns are exactly the schema columns in order; each provided
key's value appears (wrapped in `some`) in its column, every unprovided
schema column holds `None`, and the result does not depend on the
insertion order of the provided mapping. -/
theorem make_input_frame_spec {α : Type} (cols : List String)
    (provided : List (String × α))
    (hsub : ∀ p ∈ provided, p.1 ∈ cols)
    (hnd : (provided.map Prod.fst).Nodup) :
    (make_input_frame cols provided).map Prod.fst = cols ∧
    (∀ p ∈ provided, (p.1, some p.2) ∈ make_input_frame cols provided) ∧
    (∀ c ∈ cols, c ∉ provided.map Prod.fst →
      (c, (none : Option α)) ∈ make_input_frame cols provided) ∧
    (∀ provided' : List (String × α), List.Perm provided provided' →
      make_input_frame cols provided' = make_input_frame cols provided) := by
  refine ⟨?_, ?_, ?_, ?_⟩
  · rw [make_input_frame_eq cols provided hnd]
    exact map_fst_map_pair cols _
  · intro p hp
    rw [make_input_frame_eq cols provided hnd]
    refine List.mem_map.mpr ⟨p.1, hsub p hp, ?_⟩
    rw [find?_key_of_mem_nodup hnd hp]
  · intro c hc hcnot
    rw [make_input_frame_eq cols provided hnd]
    refine List.mem_map.mpr ⟨c, hc, ?_⟩
    have hfnone : provided.find? (fun q => q.1 = c) = none := by
      rw [List.find?_eq_none]
      intro x hx hpx
      exact hcnot (List.mem_map.mpr ⟨x, hx, of_decide_eq_true hpx⟩)
    rw [hfnone]
  · intro provided' hperm
    have hnd' : (provided'.map Prod.fst).Nodup :=
      ((hperm.map Prod.fst).nodup_iff).mp hnd
    rw [make_input_frame_eq cols provided hnd,
      make_input_frame_eq cols provided' hnd']
    refine List.map_congr_left ?_
    intro c _
    suffices h : provided'.find? (fun q => q.1 = c) =
        provided.find? (fun q => q.1 = c) by rw [h]
    cases hf : provided.find? (fun q => q.1 = c) with
    | some p =>
      have hp : p ∈ provided := List.mem_of_find?_eq_some hf
      have hpc : p.1 = c := by
        have := List.find?_some hf
        simpa using this
      have hp' : p ∈ provided' := hperm.mem_iff.mp hp
      have hres := find?_key_of_mem_nodup hnd' hp'
      rw [hpc] at hres
      exact hres
    | none =>
      rw [List.find?_eq_none] at hf ⊢
      intro x hx
      exact hf x (hperm.mem_iff.mpr hx)

/-- Witness for C10 on a concrete 3-column schema with two provided
features, checked against its own permutation. -/
theorem make_input_frame_spec_witness :
    (make_input_frame ["a", "b", "c"]
        [("b", (1 : ℤ)), ("a", 2)]).map Prod.fst = ["a", "b", "c"] ∧
      ("b", some (1 : ℤ)) ∈
        make_input_frame ["a", "b", "c"] [("b", (1 : ℤ)), ("a", 2)] ∧
      ("c", (none : Option ℤ)) ∈
        make_input_frame ["a", "b", "c"] [("b", (1 : ℤ)), ("a", 2)] ∧
      make_input_frame ["a", "b", "c"] [("a", (2 : ℤ)), ("b", 1)] =
        make_input_frame ["a", "b", "c"] [("b", (1 : ℤ)), ("a", 2)] := by
  have h := make_input_frame_spec ["a", "b", "c"]
    [("b", (1 : ℤ)), ("a", 2)] (by decide) (by decide)
  exact ⟨h.1, h.2.1 ("b", 1) (by decide), h.2.2.1 "c" (by decide) (by decide),
    h.2.2.2 [("a", 2), ("b", 1)] (List.Perm.swap _ _ _)⟩

/-! ### The `/predict` handler (app/main.py) -/

/-- The loaded artifact bundle (`ModelAssets` in `app/model_loader.py`):
the fitted pipeline is abstracted as a scoring function from the 1-row
input frame to `predict_proba`'s positive-class probability. -/
structure ModelAssets (α : Type) where
  model : List (String × Option α) → ℚ
  threshold : ℚ
  model_name : String
  feature_columns : List String

/-- The body of a successful `/predict` response. -/
structure PredictResponse where
  probability : ℚ
  label : ℕ
  threshold : ℚ
  model_name : String
  deriving DecidableEq, Repr

/-- The HTTP errors `/predict` can raise before returning a response.
`unknownFeatureKeys` carries the provided keys outside the schema (the
handler additionally sorts and deduplicates them for display). -/
inductive ApiError where
  | unknownFeatureKeys (extra_keys : List String)
  | predictionFailed
  deriving DecidableEq, Repr

/-- The `/predict` handler of `app/main.py`: reject a request holding any
key outside the schema with a 422 client error; otherwise build the
1-row input frame, score it, and threshold the probability into a label. -/
def predict {α : Type} (assets : ModelAssets α)
    (provided : List (String × α)) : Except ApiError PredictResponse :=
  let extra_keys := (provided.map Prod.fst).filter
    (fun k => ¬ (k ∈ assets.feature_columns))
  if extra_keys ≠ [] then .error (.unknownFeatureKeys extra_keys)
  else
    let X := make_input_frame assets.feature_columns provided
    let proba := assets.model X
    let label : ℕ := if assets.threshold ≤ proba then 1 else 0
    .ok { probability := proba, label := label,
          threshold := assets.threshold, model_name := assets.model_name }

/-- C7: for every loaded bundle whose model returns probabilities in
[0, 1] (the `predict_proba` contract of a fitted classifier) and every
request whose keys all lie in the schema, `/predict` succeeds with a
probability in [0, 1], a label in {0, 1}, the bundle's threshold, and
label = 1 exactly when the probability reaches the threshold. -/
theorem predict_response_spec {α : Type} (assets : ModelAssets α)
    (provided : List (String × α))
    (hmodel : ∀ X, 0 ≤ assets.model X ∧ assets.model X ≤ 1)
    (hsub : ∀ k ∈ provided.map Prod.fst, k ∈ assets.feature_columns) :
    ∃ resp : PredictResponse,
      predict assets provided = .ok resp ∧
      0 ≤ resp.probability ∧ resp.probability ≤ 1 ∧
      (resp.label = 0 ∨ resp.label = 1) ∧
      resp.threshold = assets.threshold ∧
      (resp.label = 1 ↔ resp.threshold ≤ resp.probability) := by
  have hextra : (provided.map Prod.fst).filter
      (fun k => ¬ (k ∈ assets.feature_columns)) = [] := by
    rw [List.filter_eq_nil_iff]
    intro k hk
    simp [hsub k hk]
  unfold predict
  rw [hextra]
  rw [if_neg (by simp)]
  set proba := assets.model
    (make_input_frame assets.feature_columns provided) with hproba
  by_cases ht : assets.threshold ≤ proba
  · refine ⟨_, rfl, (hmodel _).1, (hmodel _).2, ?_, rfl, ?_⟩
    · right
      simp [ht]
    · simp [ht]
  · refine ⟨_, rfl, (hmodel _).1, (hmodel _).2, ?_, rfl, ?_⟩
    · left
      simp [ht]
    · simp [ht]

/-- Witness for C7 on a concrete constant-½ model over a two-column
schema with one provided feature. -/
theorem predict_response_spec_witness :
    ∃ resp : PredictResponse,
      predict (ModelAssets.mk (fun _ => mkRat 1 2) (mkRat 3 10) "rf"
          ["time_in_hospital", "num_lab_procedures"])
          [("time_in_hospital", (3 : ℤ))] = .ok resp ∧
      0 ≤ resp.probability ∧ resp.probability ≤ 1 ∧
      (resp.label = 0 ∨ resp.label = 1) ∧
      resp.threshold = mkRat 3 10 ∧
      (resp.label = 1 ↔ resp.threshold ≤ resp.probability) :=
  predict_response_spec
    (ModelAssets.mk (fun _ => mkRat 1 2) (mkRat 3 10) "rf"
      ["time_in_hospital", "num_lab_procedures"])
    [("time_in_hospital", (3 : ℤ))]
    (fun _ => ⟨show (0 : ℚ) ≤ mkRat 1 2 by decide,
      show mkRat 1 2 ≤ (1 : ℚ) by decide⟩)
    (fun k hk => by
      rcases List.mem_cons.mp hk with rfl | h
      · decide
      · simp at h)

/-- C8: a request holding at least one key outside the schema is
rejected with the 422 unknown-keys client error, and no model
computation occurs: the outcome is identical for any two bundles that
differ only in their model function. -/
theorem predict_rejects_unknown_keys {α : Type}
    (m₁ m₂ : List (String × Option α) → ℚ) (threshold : ℚ)
    (model_name : String) (feature_columns : List String)
    (provided : List (String × α)) (k : String)
    (hk : k ∈ provided.map Prod.fst) (hout : k ∉ feature_columns) :
    (∃ extra_keys, extra_keys ≠ [] ∧
      predict (ModelAssets.mk m₁ threshold model_name feature_columns)
          provided = .error (.unknownFeatureKeys extra_keys)) ∧
    predict (ModelAssets.mk m₁ threshold model_name feature_columns)
        provided =
      predict (ModelAssets.mk m₂ threshold model_name feature_columns)
        provided := by
  have hne : (provided.map Prod.fst).filter
      (fun k' => ¬ (k' ∈ feature_columns)) ≠ [] := by
    intro hnil
    rw [List.filter_eq_nil_iff] at hnil
    exact (hnil k hk) (by simp [hout])
  unfold predict
  rw [if_pos (by simpa using hne), if_pos (by simpa using hne)]
  exact ⟨⟨_, hne, rfl⟩, rfl⟩

/-- Witness for C8 on a concrete request with the unknown key "zzz". -/
theorem predict_rejects_unknown_keys_witness :
    (∃ extra_keys, extra_keys ≠ [] ∧
      predict (ModelAssets.mk (fun _ => mkRat 1 2) (mkRat 3 10) "rf"
          ["time_in_hospital"]) [("zzz", (1 : ℤ))] =
        .error (.unknownFeatureKeys extra_keys)) ∧
    predict (ModelAssets.mk (fun _ => mkRat 1 2) (mkRat 3 10) "rf"
        ["time_in_hospital"]) [("zzz", (1 : ℤ))] =
      predict (ModelAssets.mk (fun _ => mkRat 9 10) (mkRat 3 10) "rf"
          ["time_in_hospital"]) [("zzz", (1 : ℤ))] :=
  predict_rejects_unknown_keys (fun _ => mkRat 1 2) (fun _ => mkRat 9 10)
    (mkRat 3 10) "rf" ["time_in_hospital"] [("zzz", (1 : ℤ))] "zzz"
    (by decide) (by decide)

end Readmission
